import Mathlib

/-!
Verification of the AskMyDocs (Tiramai RAG) repository.

This file shallowly embeds the data model and the operations of the
repository and proves the specification claims about them.  The frontend
components (MessageList.tsx, SourceList.tsx, FileUpload.tsx, Chat.tsx) and
the database schema (migrations/init.sql) are embedded directly from the
source.  The backend services (VectorStore, Chunker, IngestionCoordinator,
CacheLayer, the task state machine) are absent from the repository; their
definitions are modelled from the specification, as marked in the
individual doc comments.

Floating point scores are modelled as rationals; machine timestamps as
naturals; stateful services as explicit state passing or step relations.
-/

namespace AskMyDocs

/-! ### Sources attached to a chat response (endpoints.ts, SourceInfo) -/

/-- A source citation attached to a chat response, as declared in
`frontend/src/api/endpoints.ts` (interface SourceInfo).  The float
`similarity_score` is modelled as a rational. -/
structure SourceInfo where
  chunk_id : String
  document_id : String
  document_filename : String
  similarity_score : ℚ
  preview : String
  deriving DecidableEq

/-- One traversal step of the deduplicating reduce in `SourceList.tsx`
(lines 20-32) and `MessageList.tsx` (lines 66-77): walk the accumulator and
replace the first entry carrying the same `document_id` when the incoming
source has a strictly higher score; otherwise leave the accumulator
unchanged. -/
def replaceFirstIfBetter (s : SourceInfo) : List SourceInfo → List SourceInfo
  | [] => []
  | t :: rest =>
      if t.document_id = s.document_id then
        (if t.similarity_score < s.similarity_score then s else t) :: rest
      else t :: replaceFirstIfBetter s rest

/-- The body of the reduce in `SourceList.tsx`/`MessageList.tsx`: if some
accumulated entry shares the incoming source's `document_id`, keep only the
higher-scoring of the two; otherwise push the source. -/
def dedupStep (acc : List SourceInfo) (s : SourceInfo) : List SourceInfo :=
  if acc.any (fun t => t.document_id = s.document_id) then
    replaceFirstIfBetter s acc
  else acc ++ [s]

/-- `sources.reduce(...)` from `SourceList.tsx` lines 20-32 (the identical
reduce appears in `MessageList.tsx` lines 66-77): deduplicate sources by
`document_id`, keeping only the top-scoring chunk per document. -/
def dedupByDocument (sources : List SourceInfo) : List SourceInfo :=
  sources.foldl dedupStep []

/-- The comparator `(a, b) => b.similarity_score - a.similarity_score`
used by `Array.prototype.sort` in both components, as the corresponding
total preorder: `a` precedes `b` when `b.similarity_score ≤
a.similarity_score`. -/
def bySimDesc (a b : SourceInfo) : Prop :=
  b.similarity_score ≤ a.similarity_score

instance : DecidableRel bySimDesc := fun a b =>
  inferInstanceAs (Decidable (b.similarity_score ≤ a.similarity_score))

instance : IsTotal SourceInfo bySimDesc :=
  ⟨fun a b => le_total b.similarity_score a.similarity_score⟩

instance : IsTrans SourceInfo bySimDesc :=
  ⟨fun _ _ _ hab hbc => le_trans hbc hab⟩

/-- `deduplicated.sort((a, b) => b.similarity_score - a.similarity_score)`:
a stable sort by descending similarity score (ES2019 `Array.prototype.sort`
is stable; insertion sort realises the same ordering). -/
def sortByScoreDesc (l : List SourceInfo) : List SourceInfo :=
  l.insertionSort bySimDesc

/-- The inline sources list rendered by `MessageList.tsx` lines 64-90:
deduplicate by document, sort by descending similarity, take the top 3. -/
def messageListSources (sources : List SourceInfo) : List SourceInfo :=
  (sortByScoreDesc (dedupByDocument sources)).take 3

/-- The sidebar sources list rendered by `SourceList.tsx` lines 19-43:
deduplicate by document and sort by descending similarity (no cap is
applied in this component). -/
def sourceListSources (sources : List SourceInfo) : List SourceInfo :=
  sortByScoreDesc (dedupByDocument sources)

/-- Modelled from the spec: step 7 of the RAGOrchestrator algorithm builds
the `sources` attached to a chat response — "deduplicate RetrievalResults
by document_id keeping only the highest-scoring segment per document, sort
descending by score, cap at 3."  The backend orchestrator is absent from
the repository; this is the list a chat response carries. -/
def buildSources (results : List SourceInfo) : List SourceInfo :=
  (sortByScoreDesc (dedupByDocument results)).take 3

/-- At most one entry per `document_id`. -/
def DocNodup (l : List SourceInfo) : Prop :=
  (l.map (fun s => s.document_id)).Nodup

/-- Sorted by weakly descending similarity score. -/
def SortedDesc (l : List SourceInfo) : Prop :=
  l.Pairwise bySimDesc

lemma any_doc_iff (acc : List SourceInfo) (s : SourceInfo) :
    acc.any (fun t => t.document_id = s.document_id) = true ↔
      ∃ t ∈ acc, t.document_id = s.document_id := by
  simp [List.any_eq_true]

lemma rfib_map_doc (s : SourceInfo) : ∀ l : List SourceInfo,
    (replaceFirstIfBetter s l).map (fun t => t.document_id) =
      l.map (fun t => t.document_id)
  | [] => rfl
  | t :: rest => by
      by_cases h : t.document_id = s.document_id
      · by_cases hs : t.similarity_score < s.similarity_score
        · simp [replaceFirstIfBetter, h, hs]
        · simp [replaceFirstIfBetter, h, hs]
      · simp [replaceFirstIfBetter, h, rfib_map_doc s rest]

lemma rfib_length (s : SourceInfo) (l : List SourceInfo) :
    (replaceFirstIfBetter s l).length = l.length := by
  have h := congrArg List.length (rfib_map_doc s l)
  simpa using h

lemma rfib_mem (s : SourceInfo) : ∀ l : List SourceInfo,
    ∀ e ∈ replaceFirstIfBetter s l, e ∈ l ∨ e = s
  | [] => by intro e he; simp [replaceFirstIfBetter] at he
  | t :: rest => by
      intro e he
      by_cases h : t.document_id = s.document_id
      · by_cases hs : t.similarity_score < s.similarity_score
        · simp only [replaceFirstIfBetter, if_pos h, if_pos hs] at he
          rcases List.mem_cons.mp he with h1 | h1
          · exact Or.inr h1
          · exact Or.inl (List.mem_cons_of_mem t h1)
        · simp only [replaceFirstIfBetter, if_pos h, if_neg hs] at he
          exact Or.inl he
      · simp only [replaceFirstIfBetter, if_neg h] at he
        rcases List.mem_cons.mp he with h1 | h1
        · exact Or.inl (h1 ▸ List.mem_cons_self t rest)
        · rcases rfib_mem s rest e h1 with h2 | h2
          · exact Or.inl (List.mem_cons_of_mem t h2)
          · exact Or.inr h2

lemma rfib_rep (s : SourceInfo) : ∀ l : List SourceInfo, ∀ x ∈ l,
    ∃ e ∈ replaceFirstIfBetter s l,
      e.document_id = x.document_id ∧ x.similarity_score ≤ e.similarity_score
  | [] => by intro x hx; simp at hx
  | t :: rest => by
      intro x hx
      by_cases h : t.document_id = s.document_id
      · by_cases hs : t.similarity_score < s.similarity_score
        · rcases List.mem_cons.mp hx with h1 | h1
          · refine ⟨s, ?_, ?_, ?_⟩
            · simp [replaceFirstIfBetter, h, hs]
            · rw [h1, ← h]
            · rw [h1]; exact le_of_lt hs
          · exact ⟨x, by simp [replaceFirstIfBetter, h, hs, h1], rfl, le_refl _⟩
        · rcases List.mem_cons.mp hx with h1 | h1
          · exact ⟨t, by simp [replaceFirstIfBetter, h, hs], by rw [h1], by rw [h1]⟩
          · exact ⟨x, by simp [replaceFirstIfBetter, h, hs, h1], rfl, le_refl _⟩
      · rcases List.mem_cons.mp hx with h1 | h1
        · refine ⟨t, ?_, by rw [h1], by rw [h1]⟩
          simp only [replaceFirstIfBetter, if_neg h]
          exact List.mem_cons_self t _
        · obtain ⟨e, he, hd, hsc⟩ := rfib_rep s rest x h1
          refine ⟨e, ?_, hd, hsc⟩
          simp only [replaceFirstIfBetter, if_neg h]
          exact List.mem_cons_of_mem t he

lemma rfib_self (s : SourceInfo) : ∀ l : List SourceInfo,
    (∃ t ∈ l, t.document_id = s.document_id) →
    ∃ e ∈ replaceFirstIfBetter s l,
      e.document_id = s.document_id ∧ s.similarity_score ≤ e.similarity_score
  | [] => by intro h; simp at h
  | t :: rest => by
      intro hex
      by_cases h : t.document_id = s.document_id
      · by_cases hs : t.similarity_score < s.similarity_score
        · exact ⟨s, by simp [replaceFirstIfBetter, h, hs], rfl, le_refl _⟩
        · exact ⟨t, by simp [replaceFirstIfBetter, h, hs], h, not_lt.mp hs⟩
      · obtain ⟨t0, ht0, hd0⟩ := hex
        rcases List.mem_cons.mp ht0 with h1 | h1
        · exact absurd (h1 ▸ hd0) h
        · obtain ⟨e, he, hd, hsc⟩ := rfib_self s rest ⟨t0, h1, hd0⟩
          refine ⟨e, ?_, hd, hsc⟩
          simp only [replaceFirstIfBetter, if_neg h]
          exact List.mem_cons_of_mem t he

/-- The invariant maintained by the deduplicating reduce: the accumulator
has at most one entry per document, draws its entries from the processed
input, covers every processed source with an entry of the same document
and at least its score, and is no longer than the processed input. -/
def DedupInv (processed acc : List SourceInfo) : Prop :=
  DocNodup acc ∧ (∀ e ∈ acc, e ∈ processed) ∧
    (∀ x ∈ processed, ∃ e ∈ acc,
      e.document_id = x.document_id ∧ x.similarity_score ≤ e.similarity_score) ∧
    acc.length ≤ processed.length

lemma dedupStep_inv {processed acc : List SourceInfo} (h : DedupInv processed acc)
    (s : SourceInfo) : DedupInv (processed ++ [s]) (dedupStep acc s) := by
  obtain ⟨hnd, hmem, hrep, hlen⟩ := h
  unfold dedupStep
  by_cases hany : acc.any (fun t => t.document_id = s.document_id) = true
  · rw [if_pos hany]
    obtain ⟨t0, ht0, hdoc0⟩ := (any_doc_iff acc s).mp hany
    refine ⟨?_, ?_, ?_, ?_⟩
    · unfold DocNodup
      rw [rfib_map_doc]
      exact hnd
    · intro e he
      rcases rfib_mem s acc e he with h1 | h1
      · exact List.mem_append_left _ (hmem e h1)
      · exact h1 ▸ List.mem_append_right _ (List.mem_singleton.mpr rfl)
    · intro x hx
      rcases List.mem_append.mp hx with h1 | h1
      · obtain ⟨e, he, hd, hsc⟩ := hrep x h1
        obtain ⟨e2, he2, hd2, hsc2⟩ := rfib_rep s acc e he
        exact ⟨e2, he2, hd2.trans hd, le_trans hsc hsc2⟩
      · have hx' : x = s := List.mem_singleton.mp h1
        rw [hx']
        exact rfib_self s acc ⟨t0, ht0, hdoc0⟩
    · rw [rfib_length]
      simp only [List.length_append, List.length_singleton]
      omega
  · rw [if_neg hany]
    have hno : ∀ t ∈ acc, ¬ t.document_id = s.document_id := by
      intro t ht hc
      exact hany ((any_doc_iff acc s).mpr ⟨t, ht, hc⟩)
    refine ⟨?_, ?_, ?_, ?_⟩
    · have hnotin : s.document_id ∉ acc.map (fun t => t.document_id) := by
        intro hmem2
        obtain ⟨t, ht, hteq⟩ := List.mem_map.mp hmem2
        exact hno t ht hteq
      unfold DocNodup at hnd ⊢
      rw [List.map_append]
      simp only [List.map_cons, List.map_nil]
      rw [List.nodup_append]
      exact ⟨hnd, List.nodup_singleton _, by
        intro a ha hb
        rcases List.mem_singleton.mp hb with rfl
        exact hnotin ha⟩
    · intro e he
      rcases List.mem_append.mp he with h1 | h1
      · exact List.mem_append_left _ (hmem e h1)
      · exact List.mem_append_right _ h1
    · intro x hx
      rcases List.mem_append.mp hx with h1 | h1
      · obtain ⟨e, he, hd, hsc⟩ := hrep x h1
        exact ⟨e, List.mem_append_left _ he, hd, hsc⟩
      · have hx' : x = s := List.mem_singleton.mp h1
        rw [hx']
        exact ⟨s, List.mem_append_right _ (List.mem_singleton.mpr rfl), rfl, le_refl _⟩
    · simp only [List.length_append, List.length_singleton]
      omega

lemma foldl_dedupStep_inv : ∀ (l processed acc : List SourceInfo),
    DedupInv processed acc → DedupInv (processed ++ l) (l.foldl dedupStep acc)
  | [], processed, acc => by intro h; simpa using h
  | s :: l, processed, acc => by
      intro h
      have h2 := foldl_dedupStep_inv l (processed ++ [s]) (dedupStep acc s)
        (dedupStep_inv h s)
      simpa [List.append_assoc] using h2

lemma dedupByDocument_inv (l : List SourceInfo) : DedupInv l (dedupByDocument l) := by
  have h0 : DedupInv [] [] := by
    refine ⟨by simp [DocNodup], ?_, ?_, le_refl _⟩ <;> intro x hx <;> simp at hx
  simpa using foldl_dedupStep_inv l [] [] h0

lemma dedup_docNodup (l : List SourceInfo) : DocNodup (dedupByDocument l) :=
  (dedupByDocument_inv l).1

lemma dedup_mem (l : List SourceInfo) : ∀ e ∈ dedupByDocument l, e ∈ l :=
  (dedupByDocument_inv l).2.1

lemma dedup_rep (l : List SourceInfo) : ∀ x ∈ l, ∃ e ∈ dedupByDocument l,
    e.document_id = x.document_id ∧ x.similarity_score ≤ e.similarity_score :=
  (dedupByDocument_inv l).2.2.1

lemma dedup_length (l : List SourceInfo) : (dedupByDocument l).length ≤ l.length :=
  (dedupByDocument_inv l).2.2.2

lemma dedup_max (l : List SourceInfo) : ∀ e ∈ dedupByDocument l, ∀ x ∈ l,
    x.document_id = e.document_id → x.similarity_score ≤ e.similarity_score := by
  intro e he x hx hdoc
  obtain ⟨e2, he2, hd2, hsc2⟩ := dedup_rep l x hx
  have heq : e2 = e := by
    have hinj := List.inj_on_of_nodup_map (dedup_docNodup l)
    exact hinj he2 he (by rw [hd2, hdoc])
  exact heq ▸ hsc2

lemma sort_sorted (l : List SourceInfo) : SortedDesc (sortByScoreDesc l) :=
  List.sorted_insertionSort bySimDesc l

lemma sort_mem (l : List SourceInfo) {e : SourceInfo} :
    e ∈ sortByScoreDesc l ↔ e ∈ l :=
  List.mem_insertionSort bySimDesc

lemma sort_docNodup {l : List SourceInfo} (h : DocNodup l) :
    DocNodup (sortByScoreDesc l) := by
  unfold DocNodup at h ⊢
  exact (((List.perm_insertionSort bySimDesc l).map _).nodup_iff).mpr h

lemma sort_length (l : List SourceInfo) :
    (sortByScoreDesc l).length = l.length :=
  List.length_insertionSort bySimDesc l

lemma take3_docNodup {l : List SourceInfo} (h : DocNodup l) :
    DocNodup (l.take 3) := by
  unfold DocNodup at h ⊢
  exact h.sublist ((List.take_sublist 3 l).map _)

/-- Every entry of the capped pipeline over `l` comes from `l` and carries
the highest score among the entries of `l` for its document. -/
lemma capped_pipeline_max (l : List SourceInfo) :
    ∀ e ∈ (sortByScoreDesc (dedupByDocument l)).take 3, e ∈ l ∧
      ∀ x ∈ l, x.document_id = e.document_id →
        x.similarity_score ≤ e.similarity_score := by
  intro e he
  have hdd : e ∈ dedupByDocument l :=
    (sort_mem _).mp (List.take_subset 3 _ he)
  exact ⟨dedup_mem l e hdd, dedup_max l e hdd⟩

/--
C1: for every list of retrieval results attached to a chat response, each
of the two displayed sources lists — the inline list of `MessageList.tsx`
(which deduplicates, sorts and caps by itself, for an arbitrary sources
array) and the sidebar list of `SourceList.tsx` (which deduplicates and
sorts the response's attached sources, themselves built by the
orchestrator's `buildSources`) — contains at most one entry per
`document_id`; each entry is one of the retrieval results and carries the
highest similarity score among that document's results; the entries are in
descending score order; and the list has at most 3 entries.
-/
theorem c1_displayed_sources_dedup_sorted_capped (results : List SourceInfo) :
    (DocNodup (messageListSources results) ∧
      (∀ e ∈ messageListSources results, e ∈ results ∧
        ∀ x ∈ results, x.document_id = e.document_id →
          x.similarity_score ≤ e.similarity_score) ∧
      SortedDesc (messageListSources results) ∧
      (messageListSources results).length ≤ 3) ∧
    (DocNodup (sourceListSources (buildSources results)) ∧
      (∀ e ∈ sourceListSources (buildSources results), e ∈ results ∧
        ∀ x ∈ results, x.document_id = e.document_id →
          x.similarity_score ≤ e.similarity_score) ∧
      SortedDesc (sourceListSources (buildSources results)) ∧
      (sourceListSources (buildSources results)).length ≤ 3) := by
  constructor
  · refine ⟨?_, ?_, ?_, ?_⟩
    · exact take3_docNodup (sort_docNodup (dedup_docNodup results))
    · exact capped_pipeline_max results
    · exact (sort_sorted (dedupByDocument results)).sublist
        (List.take_sublist 3 _)
    · simp [messageListSources, List.length_take_le]
  · refine ⟨?_, ?_, ?_, ?_⟩
    · exact sort_docNodup (dedup_docNodup (buildSources results))
    · intro e he
      have h1 : e ∈ buildSources results :=
        dedup_mem _ e ((sort_mem _).mp he)
      exact capped_pipeline_max results e h1
    · exact sort_sorted _
    · calc (sourceListSources (buildSources results)).length
          = (dedupByDocument (buildSources results)).length := sort_length _
        _ ≤ (buildSources results).length := dedup_length _
        _ ≤ 3 := by simp [buildSources, List.length_take_le]

/-- Witness for C1: the cap and order of the inline sources list at a
concrete two-source response. -/
theorem c1_displayed_sources_witness :
    (messageListSources [⟨("c1"), ("d1"), ("f1"), 1/2, ("p1")⟩,
        ⟨("c2"), ("d1"), ("f1"), 3/4, ("p2")⟩]).length ≤ 3 ∧
    SortedDesc (messageListSources [⟨("c1"), ("d1"), ("f1"), 1/2, ("p1")⟩,
        ⟨("c2"), ("d1"), ("f1"), 3/4, ("p2")⟩]) :=
  ⟨((c1_displayed_sources_dedup_sorted_capped
      [⟨("c1"), ("d1"), ("f1"), 1/2, ("p1")⟩,
        ⟨("c2"), ("d1"), ("f1"), 3/4, ("p2")⟩]).1).2.2.2,
    ((c1_displayed_sources_dedup_sorted_capped
      [⟨("c1"), ("d1"), ("f1"), 1/2, ("p1")⟩,
        ⟨("c2"), ("d1"), ("f1"), 3/4, ("p2")⟩]).1).2.2.1⟩

/-! ### VectorStore (modelled from the spec, backed by the init.sql schema) -/

/-- A stored segment ("chunk", table `chunks` in `migrations/init.sql`):
segment id, owning document, text and embedding vector.  Ids are modelled
as naturals (the spec orders ties by ascending segment id), vector entries
as rationals. -/
structure StoredChunk where
  segment_id : Nat
  document_id : String
  chunk_text : String
  embedding : List ℚ
  deriving DecidableEq

/-- A retrieval result (spec §3): segment id, document id, similarity
score and text preview.  Ephemeral, produced per query. -/
structure RetrievalResult where
  segment_id : Nat
  document_id : String
  similarity : ℚ
  preview : String
  deriving DecidableEq

/-- The ordering used by `VectorStore.search` (spec §4.4): descending
similarity, ties broken by ascending segment id for determinism. -/
def searchRank (a b : RetrievalResult) : Prop :=
  b.similarity < a.similarity ∨
    (b.similarity = a.similarity ∧ a.segment_id ≤ b.segment_id)

instance : DecidableRel searchRank := fun a b =>
  inferInstanceAs (Decidable (b.similarity < a.similarity ∨
    (b.similarity = a.similarity ∧ a.segment_id ≤ b.segment_id)))

instance : IsTotal RetrievalResult searchRank := ⟨by
  intro a b
  rcases lt_trichotomy a.similarity b.similarity with h | h | h
  · exact Or.inr (Or.inl h)
  · rcases Nat.le_total a.segment_id b.segment_id with h2 | h2
    · exact Or.inl (Or.inr ⟨h.symm, h2⟩)
    · exact Or.inr (Or.inr ⟨h, h2⟩)
  · exact Or.inl (Or.inl h)⟩

instance : IsTrans RetrievalResult searchRank := ⟨by
  intro a b c hab hbc
  rcases hab with h1 | h1
  · rcases hbc with h2 | h2
    · exact Or.inl (lt_trans h2 h1)
    · exact Or.inl (by rw [h2.1]; exact h1)
  · rcases hbc with h2 | h2
    · exact Or.inl (by rw [← h1.1]; exact h2)
    · exact Or.inr ⟨h2.1.trans h1.1, le_trans h1.2 h2.2⟩⟩

/-- Modelled from the spec: the `document_id?` filter of
`VectorStore.search` restricts the search to one document's segments when
supplied (spec §4.4). -/
def searchPool (chunks : List StoredChunk) (document_id : Option String) :
    List StoredChunk :=
  match document_id with
  | none => chunks
  | some d => chunks.filter (fun c => c.document_id = d)

/-- Modelled from the spec: score every pooled segment with the similarity
operator and exclude results with similarity strictly below `min_score`
(spec §4.4).  The cosine-similarity operator itself is an external
capability of the persistent store (spec §6) and is passed in as `sim`;
the spec's clipping of reported scores to `[0,1]` is part of that
operator. -/
def searchCandidates (sim : List ℚ → List ℚ → ℚ) (chunks : List StoredChunk)
    (query_vector : List ℚ) (min_score : ℚ) (document_id : Option String) :
    List RetrievalResult :=
  ((searchPool chunks document_id).map (fun c =>
      ⟨c.segment_id, c.document_id, sim query_vector c.embedding, c.chunk_text⟩)).filter
    (fun r => min_score ≤ r.similarity)

/-- Modelled from the spec: `VectorStore.search` — an ordered list of
RetrievalResults sorted by descending similarity, ties broken by ascending
segment id, scores below `min_score` excluded, capped at `top_k`.  The
backend implementation is absent from the repository (spec §4.4). -/
def search (sim : List ℚ → List ℚ → ℚ) (chunks : List StoredChunk)
    (query_vector : List ℚ) (top_k : Nat) (min_score : ℚ)
    (document_id : Option String) : List RetrievalResult :=
  ((searchCandidates sim chunks query_vector min_score document_id).insertionSort
      searchRank).take top_k

lemma search_pairwise_rank (sim : List ℚ → List ℚ → ℚ) (chunks : List StoredChunk)
    (q : List ℚ) (top_k : Nat) (min_score : ℚ) (df : Option String) :
    (search sim chunks q top_k min_score df).Pairwise searchRank := by
  unfold search
  exact (List.sorted_insertionSort searchRank _).sublist (List.take_sublist _ _)

/--
C2: for every query vector, `top_k` and `min_score` (and optional document
filter, over any stored segments and any similarity operator),
`VectorStore.search` returns a list sorted in weakly descending order of
similarity; no returned result has similarity strictly below `min_score`;
and any two results with equal similarity appear in ascending order of
segment id.
-/
theorem c2_search_sorted_threshold_ties (sim : List ℚ → List ℚ → ℚ)
    (chunks : List StoredChunk) (q : List ℚ) (top_k : Nat) (min_score : ℚ)
    (df : Option String) :
    ((search sim chunks q top_k min_score df).Pairwise
        (fun a b => b.similarity ≤ a.similarity)) ∧
    (∀ r ∈ search sim chunks q top_k min_score df, min_score ≤ r.similarity) ∧
    ((search sim chunks q top_k min_score df).Pairwise
        (fun a b => a.similarity = b.similarity → a.segment_id ≤ b.segment_id)) := by
  have hsorted := search_pairwise_rank sim chunks q top_k min_score df
  refine ⟨hsorted.imp ?_, ?_, hsorted.imp ?_⟩
  · intro a b h
    rcases h with h | h
    · exact le_of_lt h
    · exact le_of_eq h.1
  · intro r hr
    unfold search at hr
    have h1 : r ∈ (searchCandidates sim chunks q min_score df).insertionSort
        searchRank := List.take_subset _ _ hr
    have h2 : r ∈ searchCandidates sim chunks q min_score df :=
      (List.mem_insertionSort searchRank).mp h1
    unfold searchCandidates at h2
    have h3 := (List.mem_filter.mp h2).2
    exact of_decide_eq_true h3
  · intro a b h he
    rcases h with h | h
    · rw [he] at h
      exact absurd h (lt_irrefl _)
    · exact h.2

/-- Witness for C2: the descending-similarity ordering at a concrete
store, query and threshold. -/
theorem c2_search_sorted_witness :
    (search (fun _ _ => 1) [⟨1, ("d"), ("t"), [1]⟩] [1] 5 0 none).Pairwise
      (fun a b => b.similarity ≤ a.similarity) :=
  (c2_search_sorted_threshold_ties (fun _ _ => 1) [⟨1, ("d"), ("t"), [1]⟩]
    [1] 5 0 none).1

/-! ### Chunker (modelled from the spec) -/

/-- Modelled from the spec: the sliding-window worker behind
`Chunker.split` (spec §4.2) at the granularity of tokens.  A window of
`chunk_size` tokens is emitted and the start position advances by
`chunk_size - overlap` tokens, so consecutive windows share exactly
`overlap` tokens; the final, possibly shorter remainder is emitted as the
last segment.  `fuel` bounds the recursion and is instantiated with the
token count, which the stride (at least 1 when `overlap < chunk_size`)
never lets the recursion exhaust early. -/
def splitGo (chunk_size overlap : Nat) : Nat → List String → List (List String)
  | 0, tokens => [tokens]
  | fuel + 1, tokens =>
      if tokens.length ≤ chunk_size ∨ chunk_size - overlap = 0 then [tokens]
      else tokens.take chunk_size ::
        splitGo chunk_size overlap fuel (tokens.drop (chunk_size - overlap))

namespace Chunker

/-- Modelled from the spec: `Chunker.split(text, chunk_size, overlap,
min_chunk_size) -> ordered sequence of segments` (spec §4.2), on tokenised
text.  The spec states no behaviour for `min_chunk_size` beyond the
guarantee that only a necessarily short final segment may fall below it —
which the sliding window satisfies whenever `min_chunk_size ≤ chunk_size`
— so the parameter does not alter the output. -/
def split (chunk_size overlap min_chunk_size : Nat) (tokens : List String) :
    List (List String) :=
  splitGo chunk_size overlap tokens.length tokens

end Chunker

/-- Removing the configured overlap between consecutive segments and
concatenating: the first segment in full, then every later segment with
its first `overlap` tokens (the ones shared with its predecessor)
removed. -/
def deOverlap (overlap : Nat) : List (List String) → List String
  | [] => []
  | w :: ws => w ++ (ws.map (List.drop overlap)).flatten

/-- Two consecutive segments overlap in exactly `overlap` tokens: the
second one starts with the last `overlap` tokens of the first. -/
def overlapRel (overlap : Nat) (a b : List String) : Prop :=
  b.take overlap = a.drop (a.length - overlap)

lemma join_map_drop_splitGo (cs ov : Nat) (hov : ov < cs) :
    ∀ (fuel : Nat) (toks : List String), toks.length ≤ fuel →
      ((splitGo cs ov fuel toks).map (List.drop ov)).flatten = toks.drop ov
  | 0, toks => by
      intro h
      have hnil : toks = [] := List.eq_nil_of_length_eq_zero (Nat.le_zero.mp h)
      subst hnil
      simp [splitGo]
  | fuel + 1, toks => by
      intro hlen
      by_cases hstop : toks.length ≤ cs ∨ cs - ov = 0
      · simp [splitGo, hstop]
      · push_neg at hstop
        rw [splitGo, if_neg (by push_neg; exact hstop)]
        rw [List.map_cons, List.flatten_cons]
        have hlen2 : (toks.drop (cs - ov)).length ≤ fuel := by
          rw [List.length_drop]
          omega
        rw [join_map_drop_splitGo cs ov hov fuel _ hlen2]
        rw [List.drop_drop]
        have hc : cs - ov + ov = cs := by omega
        rw [hc]
        rw [List.drop_take]
        have hd : List.drop cs toks = List.drop (cs - ov) (List.drop ov toks) := by
          rw [List.drop_drop]
          congr 1
          omega
        rw [hd, List.take_append_drop]

lemma deOverlap_splitGo (cs ov : Nat) (hov : ov < cs) :
    ∀ (fuel : Nat) (toks : List String), toks.length ≤ fuel →
      deOverlap ov (splitGo cs ov fuel toks) = toks
  | 0, toks => by
      intro h
      have hnil : toks = [] := List.eq_nil_of_length_eq_zero (Nat.le_zero.mp h)
      subst hnil
      simp [splitGo, deOverlap]
  | fuel + 1, toks => by
      intro hlen
      by_cases hstop : toks.length ≤ cs ∨ cs - ov = 0
      · simp [splitGo, hstop, deOverlap]
      · push_neg at hstop
        rw [splitGo, if_neg (by push_neg; exact hstop)]
        rw [deOverlap]
        have hlen2 : (toks.drop (cs - ov)).length ≤ fuel := by
          rw [List.length_drop]
          omega
        rw [join_map_drop_splitGo cs ov hov fuel _ hlen2]
        rw [List.drop_drop]
        have hc : cs - ov + ov = cs := by omega
        rw [hc, List.take_append_drop]

lemma splitGo_head (cs ov : Nat) (hov : ov < cs) (fuel : Nat) (toks : List String) :
    (splitGo cs ov fuel toks).head? = some (toks.take cs) ∨
      (splitGo cs ov fuel toks).head? = some toks := by
  cases fuel with
  | zero => exact Or.inr rfl
  | succ n =>
      by_cases hstop : toks.length ≤ cs ∨ cs - ov = 0
      · rw [splitGo, if_pos hstop]
        have hle : toks.length ≤ cs := by
          rcases hstop with h | h
          · exact h
          · omega
        exact Or.inl (by simp [List.take_of_length_le hle])
      · rw [splitGo, if_neg hstop]
        exact Or.inl rfl

lemma splitGo_chain (cs ov : Nat) (hov : ov < cs) :
    ∀ (fuel : Nat) (toks : List String), toks.length ≤ fuel →
      List.Chain' (overlapRel ov) (splitGo cs ov fuel toks)
  | 0, toks => by intro _; simp [splitGo]
  | fuel + 1, toks => by
      intro hlen
      by_cases hstop : toks.length ≤ cs ∨ cs - ov = 0
      · simp [splitGo, hstop]
      · push_neg at hstop
        rw [splitGo, if_neg (by push_neg; exact hstop)]
        rw [List.chain'_cons']
        have hlen2 : (toks.drop (cs - ov)).length ≤ fuel := by
          rw [List.length_drop]
          omega
        refine ⟨?_, splitGo_chain cs ov hov fuel _ hlen2⟩
        intro y hy
        have hhead := splitGo_head cs ov hov fuel (toks.drop (cs - ov))
        have hy2 : y = (toks.drop (cs - ov)).take cs ∨ y = toks.drop (cs - ov) := by
          rcases hhead with h | h <;> rw [h] at hy <;>
            simp only [Option.mem_def, Option.some.injEq] at hy
          · exact Or.inl hy.symm
          · exact Or.inr hy.symm
        have hykey : y.take ov = (toks.drop (cs - ov)).take ov := by
          rcases hy2 with h | h
          · rw [h, List.take_take]
            congr 1
            omega
          · rw [h]
        unfold overlapRel
        rw [hykey]
        have hlw : (toks.take cs).length = cs := by
          rw [List.length_take]
          omega
        rw [hlw, List.drop_take]
        congr 1
        omega

/--
C3: for every input token sequence and every chunking configuration with
`overlap < chunk_size`, the segments returned by `Chunker.split`, after
removing the configured overlap between consecutive segments, concatenate
to exactly the input with no gaps; each pair of consecutive segments
overlaps in exactly the configured `overlap` tokens; and in particular
splitting the tokens of "A B C D" with `chunk_size = 2` and `overlap = 1`
yields exactly the segments "A B", "B C", "C D".
-/
theorem c3_chunker_reconstruction (chunk_size overlap min_chunk_size : Nat)
    (tokens : List String) (hov : overlap < chunk_size) :
    deOverlap overlap (Chunker.split chunk_size overlap min_chunk_size tokens)
        = tokens ∧
    List.Chain' (overlapRel overlap)
        (Chunker.split chunk_size overlap min_chunk_size tokens) ∧
    (Chunker.split 2 1 1 [("A"), ("B"), ("C"), ("D")]).map
        (String.intercalate (" "))
      = [("A B"), ("B C"), ("C D")] := by
  refine ⟨?_, ?_, by decide⟩
  · exact deOverlap_splitGo chunk_size overlap hov tokens.length tokens (le_refl _)
  · exact splitGo_chain chunk_size overlap hov tokens.length tokens (le_refl _)

/-- Witness for C3 at a concrete configuration: `chunk_size = 2`,
`overlap = 1` on the four tokens of "A B C D". -/
theorem c3_chunker_reconstruction_witness :
    deOverlap 1 (Chunker.split 2 1 1 [("A"), ("B"), ("C"), ("D")])
        = [("A"), ("B"), ("C"), ("D")] ∧
    List.Chain' (overlapRel 1) (Chunker.split 2 1 1 [("A"), ("B"), ("C"), ("D")]) :=
  ⟨(c3_chunker_reconstruction 2 1 1 [("A"), ("B"), ("C"), ("D")] (by decide)).1,
    (c3_chunker_reconstruction 2 1 1 [("A"), ("B"), ("C"), ("D")] (by decide)).2.1⟩

/-! ### CacheLayer: TTL expiry (modelled from the spec) -/

/-- CacheEntry (spec §3): key (held by the enclosing map), value,
insertion time and ttl.  Times are modelled as natural numbers. -/
structure CacheEntry (V : Type) where
  value : V
  inserted_at : Nat
  ttl : Nat
  deriving DecidableEq

/-- Modelled from the spec: the CacheLayer's key/value state (spec §4.6).
The backend implementation is absent from the repository.  There is no
background eviction in this model: expiry is enforced lazily on reads
only, as the spec's invariant requires. -/
structure CacheLayer (V : Type) where
  entries : List (String × CacheEntry V)
  deriving DecidableEq

namespace CacheLayer

/-- The raw stored entry for a key, ignoring expiry. -/
def rawLookup {V : Type} (s : CacheLayer V) (k : String) : Option (CacheEntry V) :=
  (s.entries.find? (fun p => p.1 = k)).map Prod.snd

/-- Modelled from the spec: `get(key) -> optional value`; an entry whose
age exceeds its ttl is treated as absent on every read (lazy expiry,
spec §3/§4.6). -/
def get {V : Type} (s : CacheLayer V) (now : Nat) (k : String) : Option V :=
  match rawLookup s k with
  | none => none
  | some e => if e.ttl < now - e.inserted_at then none else some e.value

/-- Modelled from the spec: `set(key, value, ttl)` — replaces any existing
entry for the key with a fresh one inserted at the current time. -/
def set {V : Type} (s : CacheLayer V) (now : Nat) (k : String) (v : V)
    (ttl : Nat) : CacheLayer V :=
  ⟨(k, ⟨v, now, ttl⟩) :: s.entries.eraseP (fun p => p.1 = k)⟩

/-- Modelled from the spec: the read-through path of
`get_or_compute(key, ttl, compute)` — on a (valid) hit return the cached
value, otherwise run the computation and cache its result (spec §4.6).
The in-flight coalescing aspect is modelled separately as an event
system. -/
def get_or_compute {V : Type} (s : CacheLayer V) (now : Nat) (k : String)
    (ttl : Nat) (compute : V) : V × CacheLayer V :=
  match get s now k with
  | some v => (v, s)
  | none => (compute, set s now k compute ttl)

end CacheLayer

/--
C5: a `CacheLayer` read performed after an entry's age exceeds its ttl
behaves as if the entry were absent — `get` returns nothing, and
`get_or_compute` runs the computation and returns its fresh result, which
overwrites the stale entry (so a subsequent raw lookup sees the fresh
entry and a subsequent `get` returns the fresh value).  The model has no
background eviction, so none is required for this to hold.
-/
theorem c5_ttl_lazy_expiry {V : Type} (s : CacheLayer V) (k : String)
    (e : CacheEntry V) (now ttl : Nat) (compute : V)
    (hfound : CacheLayer.rawLookup s k = some e)
    (hstale : e.ttl < now - e.inserted_at) :
    CacheLayer.get s now k = none ∧
    (CacheLayer.get_or_compute s now k ttl compute).1 = compute ∧
    CacheLayer.rawLookup (CacheLayer.get_or_compute s now k ttl compute).2 k
        = some ⟨compute, now, ttl⟩ ∧
    CacheLayer.get (CacheLayer.get_or_compute s now k ttl compute).2 now k
        = some compute := by
  have hget : CacheLayer.get s now k = none := by
    unfold CacheLayer.get
    rw [hfound]
    simp [hstale]
  have hnew : CacheLayer.get_or_compute s now k ttl compute =
      (compute, CacheLayer.set s now k compute ttl) := by
    unfold CacheLayer.get_or_compute
    rw [hget]
  have hraw : CacheLayer.rawLookup (CacheLayer.set s now k compute ttl) k
      = some ⟨compute, now, ttl⟩ := by
    unfold CacheLayer.rawLookup CacheLayer.set
    simp [List.find?]
  refine ⟨hget, by rw [hnew], by rw [hnew]; exact hraw, ?_⟩
  rw [hnew]
  unfold CacheLayer.get
  rw [hraw]
  simp

/-- Witness for C5: a concrete store whose only entry for key "k" was
inserted at time 0 with ttl 5, read at time 10. -/
theorem c5_ttl_lazy_expiry_witness :
    CacheLayer.get (V := Nat) ⟨[(("k"), ⟨7, 0, 5⟩)]⟩ 10 ("k") = none ∧
    (CacheLayer.get_or_compute (V := Nat) ⟨[(("k"), ⟨7, 0, 5⟩)]⟩ 10 ("k") 5 42).1
        = 42 :=
  ⟨(c5_ttl_lazy_expiry ⟨[(("k"), ⟨7, 0, 5⟩)]⟩ ("k") ⟨7, 0, 5⟩ 10 5 42 (by decide)
      (by decide)).1,
    (c5_ttl_lazy_expiry ⟨[(("k"), ⟨7, 0, 5⟩)]⟩ ("k") ⟨7, 0, 5⟩ 10 5 42 (by decide)
      (by decide)).2.1⟩

/-! ### Upload formats (FileUpload.tsx) -/

/-- The `accept` configuration passed to `useDropzone` in
`FileUpload.tsx` lines 64-75: mime type mapped to the allowed file
extensions. -/
def acceptSpec : List (String × List String) :=
  [(("application/pdf"), [(".pdf")]),
   (("application/vnd.openxmlformats-officedocument.wordprocessingml.document"),
     [(".docx")]),
   (("application/msword"), [(".doc")]),
   (("application/zip"), [(".zip")]),
   (("text/plain"), [(".txt")]),
   (("text/markdown"), [(".md")])]

/-- All file extensions the dropzone accepts. -/
def acceptedExtensions : List String := (acceptSpec.map Prod.snd).flatten

/-- Whether a file with the given extension is accepted by the dropzone. -/
def isAccepted (ext : String) : Bool := decide (ext ∈ acceptedExtensions)

/-- The dropzone invokes `onDrop` (which submits files for ingestion) only
with the accepted files; files of other formats are not submitted. -/
def dropzoneSubmitted (files : List String) : List String :=
  files.filter isAccepted

/--
C9: the upload interface accepts exactly the fixed format set
{pdf, docx, doc, zip, txt, md} — an extension is accepted iff it is one of
these six — and every file the dropzone submits for ingestion is of an
accepted format.
-/
theorem c9_upload_formats :
    (∀ ext : String, isAccepted ext = true ↔
      (ext = (".pdf") ∨ ext = (".docx") ∨ ext = (".doc") ∨ ext = (".zip") ∨
        ext = (".txt") ∨ ext = (".md"))) ∧
    (∀ (files : List String) (f : String), f ∈ dropzoneSubmitted files →
      isAccepted f = true) := by
  constructor
  · intro ext
    simp [isAccepted, acceptedExtensions, acceptSpec]
  · intro files f hf
    exact (List.mem_filter.mp hf).2

/-- Witness for C9: ".pdf" is accepted, and the surviving member of a
concrete dropped batch is accepted. -/
theorem c9_upload_formats_witness :
    isAccepted (".pdf") = true ∧ isAccepted (".txt") = true :=
  ⟨(c9_upload_formats.1 (".pdf")).mpr (Or.inl rfl),
    c9_upload_formats.2 [(".txt"), (".exe")] (".txt") (by decide)⟩

/-! ### Chat session id (Chat.tsx) -/

/-- The id generated by `getOrCreateSessionId` in `Chat.tsx` line 19:
a "session-" tag followed by a timestamp-and-random suffix, which is
abstracted as the `suffix` argument. -/
def genSessionId (suffix : String) : String := ("session-") ++ suffix

/-- `getOrCreateSessionId` from `Chat.tsx` lines 15-23, with browser
localStorage modelled as an optional stored string.  `getItem` yields
`none` when the key is missing; the JavaScript falsiness test `!sessionId`
is true for both a missing and an empty stored string.  Returns the id
together with the storage contents after the call. -/
def getOrCreateSessionId (stored : Option String) (suffix : String) :
    String × Option String :=
  match stored with
  | none => (genSessionId suffix, some (genSessionId suffix))
  | some s =>
      if s.length = 0 then (genSessionId suffix, some (genSessionId suffix))
      else (s, some s)

/--
C10: `getOrCreateSessionId` is idempotent with respect to browser storage:
one call leaves the returned id in storage, and every subsequent call
(with any fresh-suffix candidate) returns that same id and leaves storage
unchanged — so all chat requests from the same browser carry an identical
session id until the session is cleared.
-/
theorem c10_session_id_idempotent (stored : Option String) (suffix : String) :
    (getOrCreateSessionId stored suffix).2
        = some (getOrCreateSessionId stored suffix).1 ∧
    ∀ suffix2 : String,
      getOrCreateSessionId (getOrCreateSessionId stored suffix).2 suffix2 =
        ((getOrCreateSessionId stored suffix).1,
          (getOrCreateSessionId stored suffix).2) := by
  have hgen : ∀ suf : String, ¬ (genSessionId suf).length = 0 := by
    intro suf h
    rw [genSessionId, String.length_append] at h
    have h8 : String.length ("session-") = 8 := by decide
    omega
  match stored with
  | none =>
      refine ⟨rfl, ?_⟩
      intro suffix2
      simp [getOrCreateSessionId, hgen suffix]
  | some s =>
      by_cases hs : s.length = 0
      · refine ⟨by simp [getOrCreateSessionId, hs], ?_⟩
        intro suffix2
        simp [getOrCreateSessionId, hs, hgen suffix]
      · refine ⟨by simp [getOrCreateSessionId, hs], ?_⟩
        intro suffix2
        simp [getOrCreateSessionId, hs]

/-! ### Embedding dimension invariant (init.sql) -/

/-- The deployment-wide embedding dimension: `migrations/init.sql` line 19
declares the chunks table's embedding column as `vector(384)` (the
dimension of all-MiniLM-L6-v2). -/
def EMBEDDING_DIM : Nat := 384

/-- Modelled from the spec and `migrations/init.sql`: writing one segment
to the VectorStore.  The pgvector column type `vector(384)` rejects a
vector of any other length at write time, leaving the store unchanged;
the boolean reports acceptance.  The backend writer itself is absent from
the repository. -/
def writeSegment (store : List StoredChunk) (c : StoredChunk) :
    List StoredChunk × Bool :=
  if c.embedding.length = EMBEDDING_DIM then (store ++ [c], true)
  else (store, false)

/-- The store produced by a sequence of segment writes starting from an
empty store. -/
def applyWrites (cs : List StoredChunk) : List StoredChunk :=
  cs.foldl (fun st c => (writeSegment st c).1) []

/-- Every stored segment's vector has the configured embedding dimension. -/
def DimOk (store : List StoredChunk) : Prop :=
  ∀ c ∈ store, c.embedding.length = EMBEDDING_DIM

lemma writeSegment_dimOk {store : List StoredChunk} (h : DimOk store)
    (c : StoredChunk) : DimOk (writeSegment store c).1 := by
  unfold writeSegment
  by_cases hc : c.embedding.length = EMBEDDING_DIM
  · rw [if_pos hc]
    intro x hx
    rcases List.mem_append.mp hx with h1 | h1
    · exact h x h1
    · rw [List.mem_singleton.mp h1]
      exact hc
  · rw [if_neg hc]
    exact h

lemma applyWrites_inv : ∀ (cs st : List StoredChunk), DimOk st →
    DimOk (cs.foldl (fun s c => (writeSegment s c).1) st)
  | [], _ => fun h => h
  | c :: cs, st => fun h => applyWrites_inv cs _ (writeSegment_dimOk h c)

/--
C8: every segment stored in the VectorStore has a vector whose length
equals the deployment-wide embedding dimension (384, fixed by the chunks
table schema); a write of a segment with a vector of any other length is
rejected and leaves the store unchanged.
-/
theorem c8_vector_dimension_invariant :
    (∀ (store : List StoredChunk) (c : StoredChunk),
      ¬ c.embedding.length = EMBEDDING_DIM →
        writeSegment store c = (store, false)) ∧
    (∀ (store : List StoredChunk) (c : StoredChunk),
      DimOk store → DimOk (writeSegment store c).1) ∧
    (∀ cs : List StoredChunk, DimOk (applyWrites cs)) := by
  refine ⟨?_, ?_, ?_⟩
  · intro store c hc
    unfold writeSegment
    rw [if_neg hc]
  · intro store c h
    exact writeSegment_dimOk h c
  · intro cs
    exact applyWrites_inv cs [] (by intro x hx; simp at hx)

/-- Witness for C8: a two-entry vector is rejected and leaves a concrete
store unchanged. -/
theorem c8_vector_dimension_invariant_witness :
    writeSegment [] ⟨1, ("d1"), ("text"), [0, 0]⟩ = ([], false) :=
  c8_vector_dimension_invariant.1 [] ⟨1, ("d1"), ("text"), [0, 0]⟩ (by decide)

/-! ### IngestionTask state machine (modelled from the spec) -/

/-- Task status (spec §3; mirrored by `TaskStatusResponse` in
`frontend/src/api/endpoints.ts` lines 19-26). -/
inductive TaskStatus where
  | queued
  | processing
  | completed
  | failed
  deriving DecidableEq

/-- IngestionTask (spec §3): status, progress in `[0,1]`, `document_id`
set only on Completed, `error` set only on Failed. -/
structure IngestionTask where
  status : TaskStatus
  progress : ℚ
  document_id : Option Nat
  error : Option String
  deriving DecidableEq

/-- Modelled from the spec: the IngestionCoordinator's task state machine
(spec §4.1) — Queued → Processing at progress 0, progress 0.25 after the
Parser, 0.5 after the Chunker, 0.75 after the Embedder, 1.0 after the
VectorStore write, then Completed; any stage exception moves a Processing
task directly to Failed with a recorded error.  The backend coordinator is
absent from the repository. -/
inductive TaskStep : IngestionTask → IngestionTask → Prop where
  | start : TaskStep ⟨.queued, 0, none, none⟩ ⟨.processing, 0, none, none⟩
  | afterParser : TaskStep ⟨.processing, 0, none, none⟩
      ⟨.processing, 1/4, none, none⟩
  | afterChunker : TaskStep ⟨.processing, 1/4, none, none⟩
      ⟨.processing, 1/2, none, none⟩
  | afterEmbedder : TaskStep ⟨.processing, 1/2, none, none⟩
      ⟨.processing, 3/4, none, none⟩
  | afterStore : TaskStep ⟨.processing, 3/4, none, none⟩
      ⟨.processing, 1, none, none⟩
  | complete (d : Nat) : TaskStep ⟨.processing, 1, none, none⟩
      ⟨.completed, 1, some d, none⟩
  | fail (e : String) (p : ℚ) (h0 : 0 ≤ p) (h1 : p ≤ 1) :
      TaskStep ⟨.processing, p, none, none⟩ ⟨.failed, p, none, some e⟩

/-- The per-task invariant claimed by the spec: progress lies in `[0,1]`,
`document_id` is set only on Completed and `error` only on Failed. -/
def TaskInv (t : IngestionTask) : Prop :=
  0 ≤ t.progress ∧ t.progress ≤ 1 ∧
    (¬ t.document_id = none → t.status = .completed) ∧
    (¬ t.error = none → t.status = .failed)

/--
C7: every task status is one of Queued, Processing, Completed, Failed; a
freshly submitted task satisfies the task invariant and every transition
preserves it (progress in `[0,1]`, `document_id` set only on Completed,
`error` only on Failed); progress is non-decreasing along every
transition; and no transition leaves Completed or Failed, which are
terminal.
-/
theorem c7_task_state_machine :
    (∀ s : TaskStatus,
      s = .queued ∨ s = .processing ∨ s = .completed ∨ s = .failed) ∧
    TaskInv ⟨.queued, 0, none, none⟩ ∧
    (∀ t u : IngestionTask, TaskStep t u → TaskInv t → TaskInv u) ∧
    (∀ t u : IngestionTask, TaskStep t u → t.progress ≤ u.progress) ∧
    (∀ t u : IngestionTask, TaskStep t u →
      ¬ t.status = .completed ∧ ¬ t.status = .failed) := by
  refine ⟨?_, ?_, ?_, ?_, ?_⟩
  · intro s
    cases s
    · exact Or.inl rfl
    · exact Or.inr (Or.inl rfl)
    · exact Or.inr (Or.inr (Or.inl rfl))
    · exact Or.inr (Or.inr (Or.inr rfl))
  · exact ⟨le_refl _, by norm_num, fun h => absurd rfl h, fun h => absurd rfl h⟩
  · intro t u hstep _
    cases hstep with
    | start => exact ⟨le_refl _, by norm_num, fun h => absurd rfl h,
        fun h => absurd rfl h⟩
    | afterParser => exact ⟨by norm_num, by norm_num, fun h => absurd rfl h,
        fun h => absurd rfl h⟩
    | afterChunker => exact ⟨by norm_num, by norm_num, fun h => absurd rfl h,
        fun h => absurd rfl h⟩
    | afterEmbedder => exact ⟨by norm_num, by norm_num, fun h => absurd rfl h,
        fun h => absurd rfl h⟩
    | afterStore => exact ⟨by norm_num, by norm_num, fun h => absurd rfl h,
        fun h => absurd rfl h⟩
    | complete d => exact ⟨by norm_num, le_refl _, fun _ => rfl,
        fun h => absurd rfl h⟩
    | fail e p h0 h1 => exact ⟨h0, h1, fun h => absurd rfl h, fun _ => rfl⟩
  · intro t u hstep
    cases hstep with
    | start => exact le_refl _
    | afterParser => norm_num
    | afterChunker => norm_num
    | afterEmbedder => norm_num
    | afterStore => norm_num
    | complete d => exact le_refl _
    | fail e p h0 h1 => exact le_refl _
  · intro t u hstep
    cases hstep <;> exact ⟨by simp, by simp⟩

/-- Witness for C7: the invariant transported across the concrete
Queued → Processing transition. -/
theorem c7_task_state_machine_witness :
    TaskInv ⟨.processing, 0, none, none⟩ :=
  c7_task_state_machine.2.2.1 ⟨.queued, 0, none, none⟩
    ⟨.processing, 0, none, none⟩ TaskStep.start c7_task_state_machine.2.1

/-! ### CacheLayer: in-flight coalescing (modelled from the spec) -/

/-- Modelled from the spec: the CacheLayer's coalescing state (spec §4.6).
`cache` holds completed results, `inflight` maps each key with a running
computation to the callers awaiting it, `compCount` counts underlying
computations ever started (for the chat scenario these are LLMGateway
calls), and `delivered` records each caller's received outcome.  The
backend implementation is absent from the repository. -/
structure CoalState (V : Type) where
  cache : List (String × V)
  inflight : List (String × List Nat)
  compCount : Nat
  delivered : List (Nat × Except String V)

/-- First cached value for a key. -/
def cacheLookup {V : Type} (cache : List (String × V)) (k : String) : Option V :=
  (cache.find? (fun p => p.1 = k)).map Prod.snd

/-- Modelled from the spec: a caller invoking `get_or_compute` for `k` —
a cached value is delivered at once; if a computation for `k` is already
running the caller joins its waiters rather than starting duplicate work;
otherwise a new underlying computation starts with the caller as its sole
waiter (spec §4.6). -/
def arriveCall {V : Type} (s : CoalState V) (caller : Nat) (k : String) :
    CoalState V :=
  match cacheLookup s.cache k with
  | some v => { s with delivered := s.delivered ++ [(caller, Except.ok v)] }
  | none =>
      match s.inflight.find? (fun p => p.1 = k) with
      | some _ =>
          { s with inflight := s.inflight.map (fun p =>
              if p.1 = k then (p.1, p.2 ++ [caller]) else p) }
      | none =>
          { s with inflight := s.inflight ++ [(k, [caller])],
                   compCount := s.compCount + 1 }

/-- Modelled from the spec: the computation for `k` finishing with
`outcome` — every waiter receives the same outcome; on success the result
is cached, on failure no cache entry is written (spec §4.6). -/
def finishCall {V : Type} (s : CoalState V) (k : String)
    (outcome : Except String V) : CoalState V :=
  match s.inflight.find? (fun p => p.1 = k) with
  | none => s
  | some p =>
      { s with
        inflight := s.inflight.filter (fun q => ¬ q.1 = k),
        delivered := s.delivered ++ p.2.map (fun c => (c, outcome)),
        cache := match outcome with
          | Except.ok v => s.cache ++ [(k, v)]
          | Except.error _ => s.cache }

/-- A batch of callers arriving for the same key, in order. -/
def arriveAll {V : Type} (s : CoalState V) (cs : List Nat) (k : String) :
    CoalState V :=
  cs.foldl (fun st c => arriveCall st c k) s

lemma find_map_update (l : List (String × List Nat)) (k : String) (c : Nat)
    (ws : List Nat) (h : l.find? (fun p => p.1 = k) = some (k, ws)) :
    (l.map (fun p => if p.1 = k then (p.1, p.2 ++ [c]) else p)).find?
        (fun p => p.1 = k) = some (k, ws ++ [c]) := by
  induction l with
  | nil => simp at h
  | cons p rest ih =>
      by_cases hp : p.1 = k
      · rw [List.find?_cons_of_pos _ (by simp [hp])] at h
        have hpv : p = (k, ws) := by
          injection h
        rw [List.map_cons]
        rw [List.find?_cons_of_pos _ (by simp [hp])]
        rw [hpv]
        simp
      · rw [List.find?_cons_of_neg _ (by simp [hp])] at h
        rw [List.map_cons]
        rw [List.find?_cons_of_neg _ (by simp [hp])]
        exact ih h

lemma arriveCall_coalesces {V : Type} (s : CoalState V) (caller : Nat)
    (k : String) (ws : List Nat)
    (hmiss : cacheLookup s.cache k = none)
    (hin : s.inflight.find? (fun p => p.1 = k) = some (k, ws)) :
    (arriveCall s caller k).cache = s.cache ∧
    (arriveCall s caller k).compCount = s.compCount ∧
    (arriveCall s caller k).delivered = s.delivered ∧
    (arriveCall s caller k).inflight.find? (fun p => p.1 = k)
        = some (k, ws ++ [caller]) := by
  unfold arriveCall
  rw [hmiss, hin]
  exact ⟨rfl, rfl, rfl, find_map_update s.inflight k caller ws hin⟩

lemma arriveAll_coalesces {V : Type} :
    ∀ (cs : List Nat) (s : CoalState V) (k : String) (ws : List Nat),
      cacheLookup s.cache k = none →
      s.inflight.find? (fun p => p.1 = k) = some (k, ws) →
      (arriveAll s cs k).cache = s.cache ∧
      (arriveAll s cs k).compCount = s.compCount ∧
      (arriveAll s cs k).delivered = s.delivered ∧
      (arriveAll s cs k).inflight.find? (fun p => p.1 = k)
          = some (k, ws ++ cs)
  | [], s, k, ws => by
      intro _ hin
      exact ⟨rfl, rfl, rfl, by simpa using hin⟩
  | c :: cs, s, k, ws => by
      intro hmiss hin
      obtain ⟨h1, h2, h3, h4⟩ := arriveCall_coalesces s c k ws hmiss hin
      have hrec := arriveAll_coalesces cs (arriveCall s c k) k (ws ++ [c])
        (by rw [h1]; exact hmiss) h4
      refine ⟨?_, ?_, ?_, ?_⟩
      · rw [show arriveAll s (c :: cs) k = arriveAll (arriveCall s c k) cs k
          from rfl, hrec.1, h1]
      · rw [show arriveAll s (c :: cs) k = arriveAll (arriveCall s c k) cs k
          from rfl, hrec.2.1, h2]
      · rw [show arriveAll s (c :: cs) k = arriveAll (arriveCall s c k) cs k
          from rfl, hrec.2.2.1, h3]
      · rw [show arriveAll s (c :: cs) k = arriveAll (arriveCall s c k) cs k
          from rfl, hrec.2.2.2]
        simp

/-- The canonical concurrent-chat trace: two callers issue the identical
request (same response-cache key) while nothing is cached, then the single
underlying computation finishes with answer `v`. -/
def twoCallTrace {V : Type} (k : String) (v : V) : CoalState V :=
  finishCall (arriveCall (arriveCall ⟨[], [], 0, []⟩ 1 k) 2 k) k (Except.ok v)

/--
C6: while a computation for a key is in flight, any number of further
callers for that key join it without starting new underlying computations
(the computation counter is unchanged), and when it finishes every waiter
— original and late — receives the same outcome; on failure all waiters
receive the same error and no cache entry is written.  In particular two
concurrent identical chat requests trigger exactly one LLMGateway call
and both callers receive the identical answer.
-/
theorem c6_inflight_coalescing {V : Type} (s : CoalState V) (k : String)
    (ws cs : List Nat) (outcome : Except String V) (v : V)
    (hmiss : cacheLookup s.cache k = none)
    (hin : s.inflight.find? (fun p => p.1 = k) = some (k, ws)) :
    (arriveAll s cs k).compCount = s.compCount ∧
    (∀ c ∈ ws ++ cs,
      (c, outcome) ∈ (finishCall (arriveAll s cs k) k outcome).delivered) ∧
    (∀ e : String, outcome = Except.error e →
      (finishCall (arriveAll s cs k) k outcome).cache = s.cache) ∧
    ((twoCallTrace k v).compCount = 1 ∧
      (1, Except.ok v) ∈ (twoCallTrace k v).delivered ∧
      (2, Except.ok v) ∈ (twoCallTrace k v).delivered) := by
  obtain ⟨hc, hcc, hd, hf⟩ := arriveAll_coalesces cs s k ws hmiss hin
  refine ⟨hcc, ?_, ?_, ?_⟩
  · intro c hcmem
    unfold finishCall
    rw [hf]
    simp only [List.mem_append]
    exact Or.inr (List.mem_map.mpr ⟨c, hcmem, rfl⟩)
  · intro e he
    unfold finishCall
    rw [hf, he, hc]
  · refine ⟨?_, ?_, ?_⟩ <;>
      simp [twoCallTrace, arriveCall, finishCall, cacheLookup, List.find?]

/-- Witness for C6: one caller already waiting, a second identical request
arriving while the computation is in flight, finishing with answer 42. -/
theorem c6_inflight_coalescing_witness :
    (arriveAll (V := Nat) ⟨[], [(("chat"), [1])], 1, []⟩ [2] ("chat")).compCount
        = 1 ∧
    ∀ c ∈ ([1] ++ [2] : List Nat),
      (c, Except.ok 42) ∈ (finishCall
        (arriveAll (V := Nat) ⟨[], [(("chat"), [1])], 1, []⟩ [2] ("chat"))
        ("chat") (Except.ok 42)).delivered :=
  ⟨(c6_inflight_coalescing ⟨[], [(("chat"), [1])], 1, []⟩ ("chat") [1] [2]
      (Except.ok 42) 42 (by decide) (by decide)).1,
    (c6_inflight_coalescing ⟨[], [(("chat"), [1])], 1, []⟩ ("chat") [1] [2]
      (Except.ok 42) 42 (by decide) (by decide)).2.1⟩

/-! ### IngestionCoordinator deduplication (modelled from the spec) -/

/-- A task record held by the coordinator: task id, content hash of the
submitted bytes, and the created document id once completed (`none` while
in flight). -/
structure TaskRec where
  tid : Nat
  chash : List Nat
  doc : Option Nat
  deriving DecidableEq

/-- Modelled from the spec: the IngestionCoordinator's state — task
records, stored documents as (document id, content hash) pairs, fresh id
counters, and the log of full pipeline executions
(parse → chunk → embed → store), one entry per executed run, recorded by
the content hash it processed.  The backend coordinator is absent from
the repository. -/
structure IngState where
  tasks : List TaskRec
  docs : List (Nat × List Nat)
  nextTask : Nat
  nextDoc : Nat
  runs : List (List Nat)
  deriving DecidableEq

/-- The content hash (spec glossary): a deterministic digest of the
uploaded bytes.  Modelled as the byte sequence itself, which like an
ideal digest is deterministic and collision-free. -/
def contentHash (c : List Nat) : List Nat := c

/-- Modelled from the spec: `submit(bytes, filename) -> task_id`
(spec §4.1).  If a completed Document with the content hash exists, the
submission immediately resolves to a fresh synthetic Completed task
referencing that document; if an in-flight task for the hash exists, the
submission attaches to that task; otherwise a new Queued/in-flight task is
created.  No branch runs the pipeline. -/
def submit (s : IngState) (c : List Nat) : Nat × IngState :=
  match s.docs.find? (fun d => d.2 = contentHash c) with
  | some d =>
      (s.nextTask,
        { s with tasks := s.tasks ++ [⟨s.nextTask, contentHash c, some d.1⟩],
                 nextTask := s.nextTask + 1 })
  | none =>
      match s.tasks.find? (fun t => t.chash = contentHash c ∧ t.doc = none) with
      | some t => (t.tid, s)
      | none =>
          (s.nextTask,
            { s with tasks := s.tasks ++ [⟨s.nextTask, contentHash c, none⟩],
                     nextTask := s.nextTask + 1 })

/-- Modelled from the spec: the owning worker driving an in-flight task
through the whole pipeline to Completed — the full
parse → chunk → embed → store run happens here (appended to `runs`), a
document is created, and the task records its id.  Finishing an unknown
or already-completed task does nothing. -/
def finishWith (s : IngState) (tid : Nat) : Option TaskRec → IngState
  | none => s
  | some t =>
      if t.doc = none then
        { s with
          tasks := s.tasks.map (fun u =>
            if u.tid = tid then ⟨u.tid, u.chash, some s.nextDoc⟩ else u),
          docs := s.docs ++ [(s.nextDoc, t.chash)],
          nextDoc := s.nextDoc + 1,
          runs := s.runs ++ [t.chash] }
      else s

/-- Finish the task with the given id, if it exists and is in flight. -/
def finishTask (s : IngState) (tid : Nat) : IngState :=
  finishWith s tid (s.tasks.find? (fun t => t.tid = tid))

/-- An externally observable coordinator event: a client submission or a
worker completing an in-flight task.  Interleavings of these atomic
events model sequential as well as concurrent submissions. -/
inductive IngEvent where
  | submit (c : List Nat)
  | finish (tid : Nat)
  deriving DecidableEq

/-- One coordinator step. -/
def ingStep (s : IngState) (e : IngEvent) : IngState :=
  match e with
  | .submit c => (AskMyDocs.submit s c).2
  | .finish tid => finishTask s tid

/-- The coordinator's initial state. -/
def ingInit : IngState := ⟨[], [], 0, 0, []⟩

/-- Run a sequence of events. -/
def runTrace (es : List IngEvent) (s : IngState) : IngState :=
  es.foldl ingStep s

/-- The task record for a task id, if any. -/
def taskAt (s : IngState) (tid : Nat) : Option TaskRec :=
  s.tasks.find? (fun t => t.tid = tid)

/-- Modelled from the spec: `get_status(task_id)` (spec §4.1) projected to
what C4 needs — `none` for an unknown id (`NotFound`), `some none` for an
in-flight task, `some (some d)` for a Completed task carrying document
`d`. -/
def getStatus (s : IngState) (tid : Nat) : Option (Option Nat) :=
  (taskAt s tid).map TaskRec.doc

/-- The coordinator invariant: task ids are fresh and unique, document
content hashes are unique, a completed task's document carries the task's
hash, an in-flight task's hash is not yet among the documents, at most one
in-flight task exists per hash, and the pipeline-run log matches the
created documents one for one. -/
def IngInv (s : IngState) : Prop :=
  (∀ t ∈ s.tasks, t.tid < s.nextTask) ∧
  (s.tasks.map TaskRec.tid).Nodup ∧
  (s.docs.map Prod.snd).Nodup ∧
  (∀ t ∈ s.tasks, ∀ dd, t.doc = some dd → (dd, t.chash) ∈ s.docs) ∧
  (∀ t ∈ s.tasks, t.doc = none → ∀ d ∈ s.docs, ¬ d.2 = t.chash) ∧
  (∀ t ∈ s.tasks, ∀ u ∈ s.tasks, t.doc = none → u.doc = none →
    t.chash = u.chash → t = u) ∧
  s.runs = s.docs.map Prod.snd

lemma find?_append_left {α : Type} (p : α → Bool) (l1 l2 : List α) (r : α)
    (h : l1.find? p = some r) : (l1 ++ l2).find? p = some r := by
  rw [List.find?_append, h]
  rfl

lemma find?_tid_map (l : List TaskRec) (tid d tid0 : Nat) (r : TaskRec)
    (h : l.find? (fun t => t.tid = tid0) = some r) :
    (l.map (fun u => if u.tid = tid then ⟨u.tid, u.chash, some d⟩ else u)).find?
        (fun t => t.tid = tid0)
      = some (if r.tid = tid then ⟨r.tid, r.chash, some d⟩ else r) := by
  induction l with
  | nil => simp at h
  | cons u rest ih =>
      by_cases hp : u.tid = tid0
      · rw [List.find?_cons_of_pos _ (by simp [hp])] at h
        injection h with h
        subst h
        rw [List.map_cons]
        by_cases hu : u.tid = tid
        · simp only [if_pos hu]
          rw [List.find?_cons_of_pos _ (by simp [hp])]
        · simp only [if_neg hu]
          rw [List.find?_cons_of_pos _ (by simp [hp])]
      · rw [List.find?_cons_of_neg _ (by simp [hp])] at h
        rw [List.map_cons]
        by_cases hu : u.tid = tid
        · rw [if_pos hu, List.find?_cons_of_neg _ (by simp [hp])]
          exact ih h
        · rw [if_neg hu, List.find?_cons_of_neg _ (by simp [hp])]
          exact ih h

lemma find?_tid_of_mem (l : List TaskRec) (hnd : (l.map TaskRec.tid).Nodup)
    (t : TaskRec) (ht : t ∈ l) :
    l.find? (fun u => u.tid = t.tid) = some t := by
  induction l with
  | nil => simp at ht
  | cons u rest ih =>
      rw [List.map_cons, List.nodup_cons] at hnd
      rcases List.mem_cons.mp ht with h1 | h1
      · rw [h1, List.find?_cons_of_pos _ (by simp)]
      · have hne : ¬ u.tid = t.tid := by
          intro he
          exact hnd.1 (he ▸ List.mem_map.mpr ⟨t, h1, rfl⟩)
        rw [List.find?_cons_of_neg _ (by simp [hne])]
        exact ih hnd.2 h1

lemma submit_taskAt (s : IngState) (c : List Nat) (hinv : IngInv s) :
    ∃ r : TaskRec, taskAt (submit s c).2 (submit s c).1 = some r ∧
      r.chash = contentHash c := by
  have hfresh : s.tasks.find? (fun t => t.tid = s.nextTask) = none := by
    rw [List.find?_eq_none]
    intro t ht
    simp only [decide_eq_true_eq]
    exact Nat.ne_of_lt (hinv.1 t ht)
  unfold submit taskAt
  cases hd : s.docs.find? (fun d => d.2 = contentHash c) with
  | some d =>
      refine ⟨⟨s.nextTask, contentHash c, some d.1⟩, ?_, rfl⟩
      rw [List.find?_append, hfresh]
      simp [List.find?]
  | none =>
      cases hti : s.tasks.find?
          (fun t => t.chash = contentHash c ∧ t.doc = none) with
      | some t =>
          have hprop := List.find?_some hti
          simp only [decide_eq_true_eq] at hprop
          refine ⟨t, ?_, hprop.1⟩
          exact find?_tid_of_mem s.tasks hinv.2.1 t (List.mem_of_find?_eq_some hti)
      | none =>
          refine ⟨⟨s.nextTask, contentHash c, none⟩, ?_, rfl⟩
          rw [List.find?_append, hfresh]
          simp [List.find?]

lemma append_task_tids {s : IngState} (h1 : ∀ t ∈ s.tasks, t.tid < s.nextTask)
    (h2 : (s.tasks.map TaskRec.tid).Nodup) (x : TaskRec)
    (hx : x.tid = s.nextTask) :
    (∀ t ∈ s.tasks ++ [x], t.tid < s.nextTask + 1) ∧
      ((s.tasks ++ [x]).map TaskRec.tid).Nodup := by
  constructor
  · intro t ht
    rcases List.mem_append.mp ht with hh | hh
    · exact Nat.lt_succ_of_lt (h1 t hh)
    · rw [List.mem_singleton.mp hh, hx]
      exact Nat.lt_succ_self _
  · rw [List.map_append]
    simp only [List.map_cons, List.map_nil]
    rw [List.nodup_append]
    refine ⟨h2, List.nodup_singleton _, ?_⟩
    intro a ha hb
    have hb2 : a = x.tid := List.mem_singleton.mp hb
    obtain ⟨t, ht, htid⟩ := List.mem_map.mp ha
    have := h1 t ht
    omega

lemma submit_inv (s : IngState) (c : List Nat) (hinv : IngInv s) :
    IngInv (submit s c).2 := by
  obtain ⟨h1, h2, h3, h4, h5, h6, h7⟩ := hinv
  unfold submit
  cases hd : s.docs.find? (fun d => d.2 = contentHash c) with
  | some d =>
      have hdmem : d ∈ s.docs := List.mem_of_find?_eq_some hd
      have hdh : d.2 = contentHash c := by
        have := List.find?_some hd
        simpa using this
      obtain ⟨hta, htb⟩ := append_task_tids h1 h2
        ⟨s.nextTask, contentHash c, some d.1⟩ rfl
      refine ⟨hta, htb, h3, ?_, ?_, ?_, h7⟩
      · intro t ht dd hdd
        rcases List.mem_append.mp ht with hh | hh
        · exact h4 t hh dd hdd
        · rw [List.mem_singleton.mp hh] at hdd ⊢
          have hdd2 : d.1 = dd := by injection hdd
          show (dd, contentHash c) ∈ s.docs
          rw [← hdd2, ← hdh]
          exact hdmem
      · intro t ht htdoc d2 hd2
        rcases List.mem_append.mp ht with hh | hh
        · exact h5 t hh htdoc d2 hd2
        · rw [List.mem_singleton.mp hh] at htdoc
          exact absurd htdoc (by simp)
      · intro t ht u hu htdoc hudoc hch
        rcases List.mem_append.mp ht with hh | hh <;>
          rcases List.mem_append.mp hu with hh2 | hh2
        · exact h6 t hh u hh2 htdoc hudoc hch
        · rw [List.mem_singleton.mp hh2] at hudoc
          exact absurd hudoc (by simp)
        · rw [List.mem_singleton.mp hh] at htdoc
          exact absurd htdoc (by simp)
        · rw [List.mem_singleton.mp hh, List.mem_singleton.mp hh2]
  | none =>
      cases hti : s.tasks.find?
          (fun t => t.chash = contentHash c ∧ t.doc = none) with
      | some t => exact ⟨h1, h2, h3, h4, h5, h6, h7⟩
      | none =>
          have hnodoc : ∀ d ∈ s.docs, ¬ d.2 = contentHash c := by
            intro d hd2 hc
            exact List.find?_eq_none.mp hd d hd2 (by simp [hc])
          have hnoinflight : ∀ t ∈ s.tasks,
              ¬ (t.chash = contentHash c ∧ t.doc = none) := by
            intro t ht hcontra
            exact List.find?_eq_none.mp hti t ht
              (by simp [hcontra.1, hcontra.2])
          obtain ⟨hta, htb⟩ := append_task_tids h1 h2
            ⟨s.nextTask, contentHash c, none⟩ rfl
          refine ⟨hta, htb, h3, ?_, ?_, ?_, h7⟩
          · intro t ht dd hdd
            rcases List.mem_append.mp ht with hh | hh
            · exact h4 t hh dd hdd
            · rw [List.mem_singleton.mp hh] at hdd
              exact absurd hdd (by simp)
          · intro t ht htdoc d2 hd2
            rcases List.mem_append.mp ht with hh | hh
            · exact h5 t hh htdoc d2 hd2
            · rw [List.mem_singleton.mp hh]
              intro hc
              exact hnodoc d2 hd2 hc
          · intro t ht u hu htdoc hudoc hch
            rcases List.mem_append.mp ht with hh | hh <;>
              rcases List.mem_append.mp hu with hh2 | hh2
            · exact h6 t hh u hh2 htdoc hudoc hch
            · have hux : u = ⟨s.nextTask, contentHash c, none⟩ :=
                List.mem_singleton.mp hh2
              exact absurd (⟨by rw [hch, hux], htdoc⟩ :
                t.chash = contentHash c ∧ t.doc = none) (hnoinflight t hh)
            · have htx : t = ⟨s.nextTask, contentHash c, none⟩ :=
                List.mem_singleton.mp hh
              exact absurd (⟨by rw [← hch, htx], hudoc⟩ :
                u.chash = contentHash c ∧ u.doc = none) (hnoinflight u hh2)
            · rw [List.mem_singleton.mp hh, List.mem_singleton.mp hh2]

lemma finishTask_inv (s : IngState) (tid : Nat) (hinv : IngInv s) :
    IngInv (finishTask s tid) := by
  obtain ⟨h1, h2, h3, h4, h5, h6, h7⟩ := hinv
  unfold finishTask
  cases hf : s.tasks.find? (fun t => t.tid = tid) with
  | none => exact ⟨h1, h2, h3, h4, h5, h6, h7⟩
  | some t =>
      rw [finishWith]
      by_cases htd : t.doc = none
      case neg => rw [if_neg htd]; exact ⟨h1, h2, h3, h4, h5, h6, h7⟩
      case pos =>
          rw [if_pos htd]
          have htmem : t ∈ s.tasks := List.mem_of_find?_eq_some hf
          have httid : t.tid = tid := by
            have := List.find?_some hf
            simpa using this
          have hgtid : ∀ u : TaskRec,
              (if u.tid = tid then (⟨u.tid, u.chash, some s.nextDoc⟩ : TaskRec)
                else u).tid = u.tid := by
            intro u
            by_cases hu : u.tid = tid
            · rw [if_pos hu]
            · rw [if_neg hu]
          have hmaptid : (s.tasks.map (fun u =>
              if u.tid = tid then (⟨u.tid, u.chash, some s.nextDoc⟩ : TaskRec)
                else u)).map TaskRec.tid = s.tasks.map TaskRec.tid := by
            rw [List.map_map]
            exact List.map_congr_left (fun u _ => hgtid u)
          refine ⟨?_, ?_, ?_, ?_, ?_, ?_, ?_⟩
          · intro u' hu'
            obtain ⟨u, hu, rfl⟩ := List.mem_map.mp hu'
            have h := hgtid u
            simp only [] at h ⊢
            rw [h]
            exact h1 u hu
          · rw [hmaptid]
            exact h2
          · rw [List.map_append]
            simp only [List.map_cons, List.map_nil]
            rw [List.nodup_append]
            refine ⟨h3, List.nodup_singleton _, ?_⟩
            intro a ha hb
            have hb2 : a = t.chash := List.mem_singleton.mp hb
            obtain ⟨dd, hdd, hdd2⟩ := List.mem_map.mp ha
            exact h5 t htmem htd dd hdd (by rw [hdd2, hb2])
          · intro u' hu' dd hdd
            obtain ⟨u, hu, rfl⟩ := List.mem_map.mp hu'
            by_cases hu2 : u.tid = tid
            · simp only [if_pos hu2] at hdd ⊢
              have hdd2 : s.nextDoc = dd := by injection hdd
              have hut : u = t :=
                List.inj_on_of_nodup_map h2 hu htmem (by rw [hu2, httid])
              rw [← hdd2, hut]
              exact List.mem_append_right _ (List.mem_singleton.mpr rfl)
            · simp only [if_neg hu2] at hdd ⊢
              exact List.mem_append_left _ (h4 u hu dd hdd)
          · intro u' hu' hu'doc d hd
            obtain ⟨u, hu, rfl⟩ := List.mem_map.mp hu'
            by_cases hu2 : u.tid = tid
            · simp only [if_pos hu2] at hu'doc
              exact absurd hu'doc (by simp)
            · simp only [if_neg hu2] at hu'doc ⊢
              rcases List.mem_append.mp hd with hdo | hdn
              · exact h5 u hu hu'doc d hdo
              · have hdn2 : d = (s.nextDoc, t.chash) := List.mem_singleton.mp hdn
                rw [hdn2]
                intro hcc
                have hut : t = u := h6 t htmem u hu htd hu'doc hcc
                exact hu2 (hut ▸ httid)
          · intro a' ha' b' hb' ha'doc hb'doc hch
            obtain ⟨a, ha, rfl⟩ := List.mem_map.mp ha'
            obtain ⟨b, hb, rfl⟩ := List.mem_map.mp hb'
            by_cases ha2 : a.tid = tid
            · simp only [if_pos ha2] at ha'doc
              exact absurd ha'doc (by simp)
            · by_cases hb2 : b.tid = tid
              · simp only [if_pos hb2] at hb'doc
                exact absurd hb'doc (by simp)
              · simp only [if_neg ha2] at ha'doc hch ⊢
                simp only [if_neg hb2] at hb'doc hch ⊢
                exact h6 a ha b hb ha'doc hb'doc hch
          · rw [List.map_append]
            simp only [List.map_cons, List.map_nil]
            rw [h7]

lemma ingStep_inv (s : IngState) (e : IngEvent) (h : IngInv s) :
    IngInv (ingStep s e) := by
  cases e with
  | submit c => exact submit_inv s c h
  | finish tid => exact finishTask_inv s tid h

lemma runTrace_inv : ∀ (es : List IngEvent) (s : IngState), IngInv s →
    IngInv (runTrace es s)
  | [], _ => fun h => h
  | e :: es, s => fun h => runTrace_inv es (ingStep s e) (ingStep_inv s e h)

lemma ingInit_inv : IngInv ingInit := by
  refine ⟨?_, ?_, ?_, ?_, ?_, ?_, rfl⟩ <;>
    first
      | exact List.nodup_nil
      | (intro t ht; simp [ingInit] at ht)

lemma taskAt_step (s : IngState) (e : IngEvent) (tid0 : Nat) (r : TaskRec)
    (h : taskAt s tid0 = some r) :
    ∃ r2 : TaskRec, taskAt (ingStep s e) tid0 = some r2 ∧
      r2.tid = r.tid ∧ r2.chash = r.chash := by
  cases e with
  | submit c =>
      show ∃ r2, taskAt (submit s c).2 tid0 = some r2 ∧ _
      unfold taskAt at h
      unfold submit taskAt
      cases hd : s.docs.find? (fun d => d.2 = contentHash c) with
      | some d => exact ⟨r, find?_append_left _ _ _ r h, rfl, rfl⟩
      | none =>
          cases hti : s.tasks.find?
              (fun t => t.chash = contentHash c ∧ t.doc = none) with
          | some t => exact ⟨r, h, rfl, rfl⟩
          | none => exact ⟨r, find?_append_left _ _ _ r h, rfl, rfl⟩
  | finish tid =>
      show ∃ r2, taskAt (finishTask s tid) tid0 = some r2 ∧ _
      unfold taskAt at h
      unfold finishTask taskAt
      cases hf : s.tasks.find? (fun t => t.tid = tid) with
      | none => exact ⟨r, h, rfl, rfl⟩
      | some t =>
          rw [finishWith]
          by_cases htd : t.doc = none
          · rw [if_pos htd]
            refine ⟨if r.tid = tid then ⟨r.tid, r.chash, some s.nextDoc⟩ else r,
              find?_tid_map s.tasks tid s.nextDoc tid0 r h, ?_, ?_⟩
            · by_cases hr : r.tid = tid
              · rw [if_pos hr]
              · rw [if_neg hr]
            · by_cases hr : r.tid = tid
              · rw [if_pos hr]
              · rw [if_neg hr]
          · rw [if_neg htd]
            exact ⟨r, h, rfl, rfl⟩

lemma taskAt_trace : ∀ (es : List IngEvent) (s : IngState) (tid0 : Nat)
    (r : TaskRec), taskAt s tid0 = some r →
    ∃ r2 : TaskRec, taskAt (runTrace es s) tid0 = some r2 ∧
      r2.tid = r.tid ∧ r2.chash = r.chash
  | [], s, tid0, r => fun h => ⟨r, h, rfl, rfl⟩
  | e :: es, s, tid0, r => fun h => by
      obtain ⟨r1, hr1, ht1, hc1⟩ := taskAt_step s e tid0 r h
      obtain ⟨r2, hr2, ht2, hc2⟩ := taskAt_trace es (ingStep s e) tid0 r1 hr1
      exact ⟨r2, hr2, ht2.trans ht1, hc2.trans hc1⟩

lemma filter_map_snd (p : List Nat → Bool) :
    ∀ l : List (Nat × List Nat),
      (l.map Prod.snd).filter p = (l.filter (fun d => p d.2)).map Prod.snd
  | [] => rfl
  | a :: l => by
      rw [List.map_cons, List.filter_cons, List.filter_cons]
      by_cases ha : p a.2 = true
      · rw [if_pos ha,
          if_pos (show (fun d : Nat × List Nat => p d.2) a = true from ha)]
        rw [List.map_cons, filter_map_snd p l]
      · rw [if_neg ha,
          if_neg (show ¬ (fun d : Nat × List Nat => p d.2) a = true from ha)]
        exact filter_map_snd p l

lemma length_filter_snd_eq_one (h : List Nat) :
    ∀ (l : List (Nat × List Nat)), (l.map Prod.snd).Nodup →
      ∀ x : Nat × List Nat, x ∈ l → x.2 = h →
      (l.filter (fun d => d.2 = h)).length = 1
  | [], _, x, hx, _ => by simp at hx
  | a :: rest, hnd, x, hx, hxh => by
      rw [List.map_cons, List.nodup_cons] at hnd
      rcases List.mem_cons.mp hx with h1 | h1
      · have hah : a.2 = h := by rw [← h1]; exact hxh
        rw [List.filter_cons, if_pos (by simp [hah])]
        have hrest : rest.filter (fun d => d.2 = h) = [] := by
          rw [List.filter_eq_nil_iff]
          intro d hd hc
          apply hnd.1
          rw [hah]
          have hdh : d.2 = h := by simpa using hc
          exact hdh ▸ List.mem_map.mpr ⟨d, hd, rfl⟩
        rw [hrest]
        rfl
      · have hne : ¬ a.2 = h := by
          intro he
          apply hnd.1
          rw [he, ← hxh]
          exact List.mem_map.mpr ⟨x, h1, rfl⟩
        rw [List.filter_cons, if_neg (by simpa using hne)]
        exact length_filter_snd_eq_one h rest hnd.2 x h1 hxh

/--
C4: submitting byte-identical content twice — with arbitrary coordinator
activity before, between and after the two submissions, covering both
sequential and concurrent interleavings — yields, whenever both returned
task ids resolve via `get_status` to Completed, the same document id for
both; exactly one Document with that content hash exists (hence one set of
segments); and the ingestion pipeline (parse, chunk, embed, store) ran at
most once — exactly once — for that content, so the second submission
triggered no re-parsing, re-chunking or re-embedding.
-/
theorem c4_ingestion_idempotent (pre mid post : List IngEvent) (c : List Nat)
    (d1 d2 : Nat)
    (hc1 : getStatus
        (runTrace post
          (submit (runTrace mid (submit (runTrace pre ingInit) c).2) c).2)
        (submit (runTrace pre ingInit) c).1 = some (some d1))
    (hc2 : getStatus
        (runTrace post
          (submit (runTrace mid (submit (runTrace pre ingInit) c).2) c).2)
        (submit (runTrace mid (submit (runTrace pre ingInit) c).2) c).1
          = some (some d2)) :
    d1 = d2 ∧
    ((runTrace post
        (submit (runTrace mid (submit (runTrace pre ingInit) c).2) c).2).docs.filter
          (fun d => d.2 = contentHash c)).length = 1 ∧
    ((runTrace post
        (submit (runTrace mid (submit (runTrace pre ingInit) c).2) c).2).runs.filter
          (fun x => x = contentHash c)).length = 1 := by
  have hinv0 : IngInv (runTrace pre ingInit) :=
    runTrace_inv pre ingInit ingInit_inv
  obtain ⟨r1, hr1, hr1h⟩ := submit_taskAt (runTrace pre ingInit) c hinv0
  have hinv1 : IngInv (submit (runTrace pre ingInit) c).2 :=
    submit_inv _ c hinv0
  obtain ⟨r1b, hr1b, ht1b, hc1b⟩ := taskAt_trace mid
    (submit (runTrace pre ingInit) c).2 (submit (runTrace pre ingInit) c).1
    r1 hr1
  have hinv2 : IngInv (runTrace mid (submit (runTrace pre ingInit) c).2) :=
    runTrace_inv mid _ hinv1
  obtain ⟨r2, hr2, hr2h⟩ :=
    submit_taskAt (runTrace mid (submit (runTrace pre ingInit) c).2) c hinv2
  have hinv3 :
      IngInv (submit (runTrace mid (submit (runTrace pre ingInit) c).2) c).2 :=
    submit_inv _ c hinv2
  obtain ⟨r1c, hr1c, ht1c, hc1c⟩ := taskAt_step
    (runTrace mid (submit (runTrace pre ingInit) c).2) (.submit c)
    (submit (runTrace pre ingInit) c).1 r1b hr1b
  obtain ⟨r1d, hr1d, ht1d, hc1d⟩ := taskAt_trace post
    (submit (runTrace mid (submit (runTrace pre ingInit) c).2) c).2
    (submit (runTrace pre ingInit) c).1 r1c hr1c
  obtain ⟨r2d, hr2d, ht2d, hc2d⟩ := taskAt_trace post
    (submit (runTrace mid (submit (runTrace pre ingInit) c).2) c).2
    (submit (runTrace mid (submit (runTrace pre ingInit) c).2) c).1 r2 hr2
  have hinvF : IngInv (runTrace post
      (submit (runTrace mid (submit (runTrace pre ingInit) c).2) c).2) :=
    runTrace_inv post _ hinv3
  unfold getStatus at hc1 hc2
  rw [hr1d] at hc1
  rw [hr2d] at hc2
  rw [Option.map_some'] at hc1 hc2
  have hdoc1 : r1d.doc = some d1 := by injection hc1
  have hdoc2 : r2d.doc = some d2 := by injection hc2
  have hmem1 := hinvF.2.2.2.1 r1d (List.mem_of_find?_eq_some hr1d) d1 hdoc1
  have hmem2 := hinvF.2.2.2.1 r2d (List.mem_of_find?_eq_some hr2d) d2 hdoc2
  have hch1 : r1d.chash = contentHash c := by rw [hc1d, hc1c, hc1b, hr1h]
  have hch2 : r2d.chash = contentHash c := by rw [hc2d, hr2h]
  rw [hch1] at hmem1
  rw [hch2] at hmem2
  have hdd : (d1, contentHash c) = (d2, contentHash c) :=
    List.inj_on_of_nodup_map hinvF.2.2.1 hmem1 hmem2 rfl
  have hd12 : d1 = d2 := congrArg Prod.fst hdd
  refine ⟨hd12, ?_, ?_⟩
  · exact length_filter_snd_eq_one (contentHash c) _ hinvF.2.2.1
      (d1, contentHash c) hmem1 rfl
  · rw [hinvF.2.2.2.2.2.2, filter_map_snd, List.length_map]
    exact length_filter_snd_eq_one (contentHash c) _ hinvF.2.2.1
      (d1, contentHash c) hmem1 rfl

/-- Witness for C4: content `[7]` is submitted, ingested to completion,
and submitted again (sequential resubmission after completion); both task
ids resolve to Completed with document 0, one document and one pipeline
run exist for the content. -/
theorem c4_ingestion_idempotent_witness :
    (0 : Nat) = 0 ∧
    ((runTrace []
        (submit (runTrace [.finish 0] (submit (runTrace [] ingInit) [7]).2) [7]).2).docs.filter
          (fun d => d.2 = contentHash [7])).length = 1 ∧
    ((runTrace []
        (submit (runTrace [.finish 0] (submit (runTrace [] ingInit) [7]).2) [7]).2).runs.filter
          (fun x => x = contentHash [7])).length = 1 :=
  c4_ingestion_idempotent [] [.finish 0] [] [7] 0 0 (by decide) (by decide)

end AskMyDocs
